import Mathlib

/-!
# Verification of `univariate_outlier_detection.py`

Shallow embedding of the MAD-based univariate outlier detector
(`make_boolean_column`, `replace_outliers`, `detect_univariate_outliers`)
from `robust_stats`, together with proofs settling the specification
claims.

Modelling conventions:
* A dataframe cell is `Option ℚ`; `none` plays the role of pandas' `NaN`
  (both the missing-value marker and a NaN produced by a computation —
  in this program the two coincide, see `colBounds`).
* A dataframe is an ordered association list from column name to column;
  pandas aligns rows by position here (the integer index `0..n-1`), so a
  column is a plain list.
* Exact rationals stand for IEEE doubles.  The statsmodels scaling
  constant `Gaussian.ppf(3/4)` is embedded as the exact rational value
  of that double (`madConst`).
* Comparisons against `NaN` are `False` in pandas/numpy; the `Option`
  comparison helpers below (`ltNaN`, `leNaN`, ...) return `false`
  whenever either side is `none`, mirroring that.
* The source appends the `upper`/`lower` bound rows to the dataframe
  (`temp_df = df.append(...)`) so that the per-column functions can read
  them via `col.loc['upper']` / `col.loc['lower']`, and drops those rows
  from the results.  The embedding passes the two bounds as an explicit
  `Bounds` argument instead; the one behavioural consequence of the
  sentinel rows — `replace_outliers` reads `col.loc['lower']` *after*
  the first in-place `where` pass has possibly overwritten that row —
  is modelled faithfully (see `replace_outliers`).
-/

namespace RobustStats

/-- A dataframe cell: `none` is pandas' `NaN` / missing marker. -/
abbrev Value : Type := Option ℚ

/-- A dataframe column, rows in order. -/
abbrev Column : Type := List Value

/-- A dataframe: ordered mapping from column name to column. -/
abbrev Table : Type := List (String × Column)

/-- A boolean dataframe, as produced by `make_boolean_column` per column. -/
abbrev BoolTable : Type := List (String × List Bool)

/-- `np.median` over exact rationals: sort, take the middle element for
odd length, the average of the two middle elements for even length;
`none` (NaN) for the empty input. -/
def medianSorted (s : List ℚ) : Option ℚ :=
  if s.length = 0 then none
  else if s.length % 2 = 1 then some (s.getD (s.length / 2) 0)
  else some ((s.getD (s.length / 2 - 1) 0 + s.getD (s.length / 2) 0) / 2)

/-- Median of an unsorted list, as `np.median` / `pd.DataFrame.median`
compute it (on the non-missing values the caller passes in). -/
def medianQ (xs : List ℚ) : Option ℚ :=
  medianSorted (List.insertionSort (· ≤ ·) xs)

/-- The non-missing entries of a column, in order
(`df[[col]].dropna()`; also what `df.median()` skips NaN over). -/
def nonmissing (col : Column) : List ℚ :=
  col.filterMap id

/-- The scaling denominator used by `statsmodels.robust.scale.mad` with
its default argument: the IEEE double closest to `Gaussian.ppf(3/4)`,
i.e. `0.6744897501960817...`, as an exact rational.  Dividing by it is
the same as multiplying by the consistency constant `≈ 1.4826`. -/
def madConst : ℚ := 6075263575296585 / 9007199254740992

/-- `median(|x - median(x)|)` — the unscaled inner part of
`robust.scale.mad` (whose default center is `np.median`). -/
def rawMad (xs : List ℚ) : Option ℚ :=
  match medianQ xs with
  | none => none
  | some m => medianQ (xs.map fun x => |x - m|)

/-- `robust.scale.mad(xs)`: the median absolute deviation from the
median, divided by `madConst` (statsmodels divides each deviation by
the constant before taking the median; over exact rationals, dividing
the median by the positive constant is the same list computation). -/
def madQ (xs : List ℚ) : Option ℚ :=
  (rawMad xs).map (· / madConst)

/-- Per-column rejection bounds, lines 75-97 of the source: the MAD of
the column after dropping NaN, the column median (`df.median()`, which
skips NaN), and `upper/lower = median ± threshold * mad`.  A column
with no non-missing value has NaN median and NaN MAD (numpy's median
of an empty array), hence NaN bounds: that is the `none, none` case. -/
structure Bounds where
  upper : Value
  lower : Value
deriving Repr, DecidableEq

/-- Compute the `upper` and `lower` rejection thresholds for one column,
exactly as `detect_univariate_outliers` computes `mad`, `median`,
`upper` and `lower` for each column of `df`. -/
def colBounds (threshold : ℚ) (col : Column) : Bounds :=
  match medianQ (nonmissing col), madQ (nonmissing col) with
  | some med, some mad =>
      { upper := some (med + threshold * mad)
        lower := some (med - threshold * mad) }
  | _, _ => { upper := none, lower := none }

/-- Pandas elementwise `<` against a scalar: comparisons involving NaN
are `False`. -/
def ltNaN : Value → Value → Bool
  | some a, some b => decide (a < b)
  | _, _ => false

/-- Pandas elementwise `>` against a scalar: `False` on NaN. -/
def gtNaN (a b : Value) : Bool := ltNaN b a

/-- Pandas elementwise `≤` against a scalar: `False` on NaN. -/
def leNaN : Value → Value → Bool
  | some a, some b => decide (a ≤ b)
  | _, _ => false

/-- Pandas elementwise `≥` against a scalar: `False` on NaN. -/
def geNaN (a b : Value) : Bool := leNaN b a

/-- One cell of `make_boolean_column` (line 22 of the source):
`(col > col.loc['upper']) | (col < col.loc['lower'])`. -/
def flagEntry (b : Bounds) (v : Value) : Bool :=
  gtNaN v b.upper || ltNaN v b.lower

/-- `make_boolean_column` applied to one data column (the sentinel
`upper`/`lower` rows are compared too in the source but dropped from
the result immediately afterwards; elementwise comparison makes them
irrelevant to the data rows). -/
def make_boolean_column (b : Bounds) (col : Column) : List Bool :=
  col.map (flagEntry b)

/-- One cell of `col.where(col <= thresh, thresh, inplace=True)`:
keep `v` where the condition holds, else overwrite with `thresh`
(NaN comparisons are `False`, so a NaN cell is overwritten too). -/
def whereLe (thresh v : Value) : Value :=
  if leNaN v thresh then v else thresh

/-- One cell of `col.where(col >= thresh, thresh, inplace=True)`. -/
def whereGe (thresh v : Value) : Value :=
  if geNaN v thresh then v else thresh

/-- The effect of `replace_outliers` on one cell.  Faithful to the
in-place sequence of the source:
1. `nan_col = col.isnull()` snapshots missingness;
2. `upperThresh = col.loc['upper']` is read, then every cell with
   `not (cell <= upperThresh)` — including NaN cells — becomes
   `upperThresh`;
3. `lowerThresh = col.loc['lower']` is read *after* step 2, which has
   already rewritten the sentinel `lower` row: it is now
   `whereLe upper lower` (equal to `lower` whenever
   `lower <= upper`); then every cell with
   `not (cell >= lowerThresh)` becomes `lowerThresh`;
4. cells that were NaN in step 1 are set back to NaN.
The sentinel rows themselves are dropped by the caller. -/
def replaceEntry (b : Bounds) (v : Value) : Value :=
  let upperThresh := b.upper
  let lowerThresh := whereLe upperThresh b.lower
  if v.isNone then none else whereGe lowerThresh (whereLe upperThresh v)

/-- `replace_outliers` applied to one data column: the per-cell function
`replaceEntry` above, mapped over the rows (the source computes
`upperThresh`/`lowerThresh` once per column; `replaceEntry` recomputes
the same pure values per cell). -/
def replace_outliers (b : Bounds) (col : Column) : Column :=
  col.map (replaceEntry b)

/-- `detect_univariate_outliers(df, threshold, replace)`: compute the
per-column bounds once, always produce the boolean outlier dataframe,
and when `replace` is set also the winsorized dataframe.  The source
returns a pair `(outlier_df, replaced_df)` when `replace=True` and just
`outlier_df` otherwise; the embedding returns the mask together with
`some`/`none` of the replaced table. -/
def detect_univariate_outliers (df : Table) (threshold : ℚ)
    (replace : Bool) : BoolTable × Option Table :=
  let outlier_df : BoolTable :=
    df.map fun nc => (nc.1, make_boolean_column (colBounds threshold nc.2) nc.2)
  if replace then
    (outlier_df,
      some (df.map fun nc => (nc.1, replace_outliers (colBounds threshold nc.2) nc.2)))
  else
    (outlier_df, none)

/-- State-passing view of a call for the frame property: the caller's
dataframe object together with the call's results.  The only in-place
mutations in the source are the three `where(..., inplace=True)` calls
inside `replace_outliers`, and they act on columns of
`temp_df = df.append(...)`; pandas' `append` returns a fresh frame with
copied data, so the caller's `df` is only ever read.  The first
component is the caller's dataframe as it stands after the call. -/
def detect_univariate_outliers_trace (df : Table) (threshold : ℚ)
    (replace : Bool) : Table × (BoolTable × Option Table) :=
  (df, detect_univariate_outliers df threshold replace)

/-! ## Sorted-copy and median lemmas -/

lemma sortQ_length (xs : List ℚ) :
    (List.insertionSort (· ≤ ·) xs).length = xs.length :=
  List.length_insertionSort _ _

lemma sortQ_sorted (xs : List ℚ) :
    (List.insertionSort (· ≤ ·) xs).Sorted (· ≤ ·) :=
  List.sorted_insertionSort _ _

lemma sortQ_mem {x : ℚ} {xs : List ℚ} :
    x ∈ List.insertionSort (· ≤ ·) xs ↔ x ∈ xs :=
  (List.perm_insertionSort _ _).mem_iff

/-- The lower middle entry of the sorted copy of `xs`. -/
def midLo (xs : List ℚ) : ℚ :=
  (List.insertionSort (· ≤ ·) xs).getD ((xs.length - 1) / 2) 0

/-- The upper middle entry of the sorted copy of `xs`; for odd length it
coincides with `midLo`. -/
def midHi (xs : List ℚ) : ℚ :=
  (List.insertionSort (· ≤ ·) xs).getD (xs.length / 2) 0

/-- The median of a nonempty list is the average of the two middle
entries of its sorted copy (for odd length the two coincide). -/
lemma medianQ_eq {xs : List ℚ} (h : xs ≠ []) :
    medianQ xs = some ((midLo xs + midHi xs) / 2) := by
  have hn : 0 < xs.length := List.length_pos.mpr h
  have hs : (List.insertionSort (· ≤ ·) xs).length = xs.length := sortQ_length xs
  unfold medianQ medianSorted midLo midHi
  rw [hs]
  by_cases hp : xs.length % 2 = 1
  · rw [if_neg (by omega), if_pos hp]
    have he : (xs.length - 1) / 2 = xs.length / 2 := by omega
    rw [he]
    congr 1
    ring
  · rw [if_neg (by omega), if_neg hp]
    have he : xs.length / 2 - 1 = (xs.length - 1) / 2 := by omega
    rw [he]

lemma getD_mem_of_lt {l : List ℚ} {i : ℕ} (h : i < l.length) : l.getD i 0 ∈ l := by
  rw [List.getD_eq_getElem?_getD, List.getElem?_eq_getElem h]
  exact List.getElem_mem h

lemma midLo_mem {xs : List ℚ} (h : xs ≠ []) : midLo xs ∈ xs := by
  have hn : 0 < xs.length := List.length_pos.mpr h
  exact sortQ_mem.mp (getD_mem_of_lt (by rw [sortQ_length]; omega))

lemma midHi_mem {xs : List ℚ} (h : xs ≠ []) : midHi xs ∈ xs := by
  have hn : 0 < xs.length := List.length_pos.mpr h
  exact sortQ_mem.mp (getD_mem_of_lt (by rw [sortQ_length]; omega))

lemma sorted_getD_mono {l : List ℚ} (hs : l.Sorted (· ≤ ·)) {i j : ℕ}
    (hij : i ≤ j) (hj : j < l.length) : l.getD i 0 ≤ l.getD j 0 := by
  have hi : i < l.length := by omega
  rw [List.getD_eq_getElem?_getD, List.getD_eq_getElem?_getD,
    List.getElem?_eq_getElem hi, List.getElem?_eq_getElem hj]
  simp only [Option.getD_some]
  rcases Nat.eq_or_lt_of_le hij with rfl | hlt
  · exact le_refl _
  · have := hs.rel_get_of_lt (a := ⟨i, hi⟩) (b := ⟨j, hj⟩) (Fin.mk_lt_mk.mpr hlt)
    simpa [List.get_eq_getElem] using this

lemma midLo_le_midHi {xs : List ℚ} (h : xs ≠ []) : midLo xs ≤ midHi xs := by
  have hn : 0 < xs.length := List.length_pos.mpr h
  unfold midLo midHi
  exact sorted_getD_mono (sortQ_sorted xs) (by omega) (by rw [sortQ_length]; omega)

/-- Every element of a list is at most the lower middle entry or at
least the upper middle entry of the sorted copy. -/
lemma le_midLo_or_midHi_le {xs : List ℚ} (h : xs ≠ []) {x : ℚ} (hx : x ∈ xs) :
    x ≤ midLo xs ∨ midHi xs ≤ x := by
  have hn : 0 < xs.length := List.length_pos.mpr h
  have hmem : x ∈ List.insertionSort (· ≤ ·) xs := sortQ_mem.mpr hx
  obtain ⟨k, hk, hkx⟩ := List.mem_iff_getElem.mp hmem
  have hget : (List.insertionSort (· ≤ ·) xs).getD k 0 = x := by
    rw [List.getD_eq_getElem?_getD, List.getElem?_eq_getElem hk]
    simpa using hkx
  have hsl : (List.insertionSort (· ≤ ·) xs).length = xs.length := sortQ_length xs
  by_cases hks : k ≤ (xs.length - 1) / 2
  · left
    rw [← hget]
    exact sorted_getD_mono (sortQ_sorted xs) hks (by omega)
  · right
    rw [← hget]
    exact sorted_getD_mono (sortQ_sorted xs) (by omega) (by omega)

lemma le_medianQ_of_le {xs : List ℚ} {w m : ℚ} (h : xs ≠ [])
    (hw : ∀ x ∈ xs, w ≤ x) (hm : medianQ xs = some m) : w ≤ m := by
  rw [medianQ_eq h] at hm
  have hml := hw _ (midLo_mem h)
  have hmh := hw _ (midHi_mem h)
  have : m = (midLo xs + midHi xs) / 2 := (Option.some.inj hm).symm
  rw [this]
  linarith

/-- Sorting commutes with mapping a monotone function. -/
lemma sortQ_map_monotone {f : ℚ → ℚ} (hf : Monotone f) (xs : List ℚ) :
    List.insertionSort (· ≤ ·) (xs.map f)
      = (List.insertionSort (· ≤ ·) xs).map f := by
  apply List.eq_of_perm_of_sorted
    ((List.perm_insertionSort _ _).trans ((List.perm_insertionSort _ xs).map f).symm)
    (sortQ_sorted _)
  exact (sortQ_sorted xs).map f (fun _ _ hab => hf hab)

lemma midLo_map_monotone {f : ℚ → ℚ} (hf : Monotone f) {xs : List ℚ} (h : xs ≠ []) :
    midLo (xs.map f) = f (midLo xs) ∧ midHi (xs.map f) = f (midHi xs) := by
  have hn : 0 < xs.length := List.length_pos.mpr h
  unfold midLo midHi
  rw [sortQ_map_monotone hf, List.length_map]
  have hl : (List.insertionSort (· ≤ ·) xs).length = xs.length := sortQ_length xs
  constructor <;>
  · rw [List.getD_eq_getElem?_getD, List.getD_eq_getElem?_getD, List.getElem?_map,
      List.getElem?_eq_getElem (by omega)]
    simp

/-- Median of a monotone image: average of the images of the two middle
entries of the sorted original. -/
lemma medianQ_map_monotone {f : ℚ → ℚ} (hf : Monotone f) {xs : List ℚ} (h : xs ≠ []) :
    medianQ (xs.map f) = some ((f (midLo xs) + f (midHi xs)) / 2) := by
  have hne : xs.map f ≠ [] := by simpa using h
  rw [medianQ_eq hne, (midLo_map_monotone hf h).1, (midLo_map_monotone hf h).2]

/-! ## Clipping and per-cell replacement lemmas -/

/-- The value a present cell ends up with after the two `where` passes,
when both bounds are present and ordered. -/
def clipTo (l u x : ℚ) : ℚ :=
  if u < x then u else if x < l then l else x

lemma clipTo_bounds {l u x : ℚ} (hlu : l ≤ u) :
    l ≤ clipTo l u x ∧ clipTo l u x ≤ u := by
  unfold clipTo
  split_ifs with h1 h2
  · exact ⟨hlu, le_refl u⟩
  · exact ⟨le_refl l, hlu⟩
  · exact ⟨not_lt.mp h2, not_lt.mp h1⟩

lemma clipTo_eq_self {l u x : ℚ} (hl : l ≤ x) (hu : x ≤ u) : clipTo l u x = x := by
  unfold clipTo
  rw [if_neg (not_lt.mpr hu), if_neg (not_lt.mpr hl)]

lemma clipTo_monotone {l u : ℚ} (hlu : l ≤ u) : Monotone (clipTo l u) := by
  intro x y hxy
  unfold clipTo
  split_ifs <;> linarith

lemma abs_clipTo {m D x : ℚ} (hD : 0 ≤ D) :
    |clipTo (m - D) (m + D) x - m| = min |x - m| D := by
  unfold clipTo
  split_ifs with h1 h2
  · have h3 : D ≤ |x - m| := le_trans (by linarith) (le_abs_self _)
    rw [min_eq_right h3, show m + D - m = D from by ring, abs_of_nonneg hD]
  · have h4 : -(x - m) ≤ |x - m| := neg_le_abs _
    have h3 : D ≤ |x - m| := by linarith
    rw [min_eq_right h3, show m - D - m = -D from by ring, abs_neg, abs_of_nonneg hD]
  · have h3 : |x - m| ≤ D := abs_le.mpr ⟨by linarith, by linarith⟩
    rw [min_eq_left h3]

lemma leNaN_some_some (a b : ℚ) : leNaN (some a) (some b) = decide (a ≤ b) := rfl

lemma ltNaN_some_some (a b : ℚ) : ltNaN (some a) (some b) = decide (a < b) := rfl

lemma leNaN_none_left (v : Value) : leNaN none v = false := rfl

lemma leNaN_none_right (v : Value) : leNaN v none = false := by cases v <;> rfl

lemma ltNaN_none_left (v : Value) : ltNaN none v = false := rfl

lemma ltNaN_none_right (v : Value) : ltNaN v none = false := by cases v <;> rfl

lemma replaceEntry_none (b : Bounds) : replaceEntry b none = none := rfl

lemma replaceEntry_some {u l : ℚ} (hlu : l ≤ u) (x : ℚ) :
    replaceEntry ⟨some u, some l⟩ (some x) = some (clipTo l u x) := by
  simp only [replaceEntry, whereLe, whereGe, geNaN, leNaN_some_some, clipTo,
    Option.isNone_some, Bool.false_eq_true, if_false, decide_eq_true_eq]
  rw [if_pos hlu]
  by_cases hxu : x ≤ u
  · simp only [if_pos hxu, leNaN_some_some, decide_eq_true_eq]
    by_cases hxl : l ≤ x
    · simp only [if_pos hxl, if_neg (not_lt.mpr hxu), if_neg (not_lt.mpr hxl)]
    · simp only [if_neg hxl, if_neg (not_lt.mpr hxu), if_pos (not_le.mp hxl)]
  · simp only [if_neg hxu, leNaN_some_some, decide_eq_true_eq, if_pos hlu,
      if_pos (not_le.mp hxu)]

/-- With present bounds a present value stays present, whether or not
the bounds are ordered. -/
lemma replaceEntry_isSome {u l : ℚ} {b : Bounds} (x : ℚ)
    (hu : b.upper = some u) (hl : b.lower = some l) :
    ∃ y, replaceEntry b (some x) = some y := by
  rcases b with ⟨bu, bl⟩
  simp only at hu hl
  subst hu; subst hl
  simp only [replaceEntry, Option.isNone_some, Bool.false_eq_true, if_false]
  have hG : ∀ a v : ℚ, ∃ y, whereGe (some a) (some v) = some y := by
    intro a v
    unfold whereGe geNaN
    rw [leNaN_some_some]
    split_ifs <;> exact ⟨_, rfl⟩
  have hWx : whereLe (some u) (some x) = some x ∨ whereLe (some u) (some x) = some u := by
    unfold whereLe
    split_ifs <;> simp
  have hWl : whereLe (some u) (some l) = some l ∨ whereLe (some u) (some l) = some u := by
    unfold whereLe
    split_ifs <;> simp
  rcases hWx with hx | hx <;> rcases hWl with hl2 | hl2 <;> rw [hx, hl2] <;> exact hG _ _

/-! ## Per-column bound lemmas -/

lemma nonmissing_eq_nil_iff {col : Column} :
    nonmissing col = [] ↔ ∀ v ∈ col, v = none := by
  unfold nonmissing
  rw [List.filterMap_eq_nil_iff]
  constructor
  · intro h v hv
    cases v with
    | none => rfl
    | some x => exact absurd (h _ hv) (by simp)
  · intro h v hv
    rw [h v hv]
    rfl

lemma mem_nonmissing_of_getElem {col : Column} {j : ℕ} {x : ℚ}
    (hj : col[j]? = some (some x)) : x ∈ nonmissing col :=
  List.mem_filterMap.mpr ⟨some x, List.getElem?_mem hj, rfl⟩

lemma madConst_pos : 0 < madConst := by norm_num [madConst]

lemma colBounds_of_nil (t : ℚ) {col : Column} (h : nonmissing col = []) :
    colBounds t col = ⟨none, none⟩ := by
  have h1 : medianQ (nonmissing col) = none := by rw [h]; rfl
  have h2 : madQ (nonmissing col) = none := by
    simp only [madQ, rawMad, h1, Option.map_none']
  unfold colBounds
  rw [h1, h2]

/-- For a column with at least one non-missing value, the bounds are
`median ± threshold * (median absolute deviation / madConst)`, the
median and deviations being taken over that column's non-missing
values. -/
lemma colBounds_spec (t : ℚ) {col : Column} (h : nonmissing col ≠ []) :
    ∃ m s, medianQ (nonmissing col) = some m ∧
      medianQ ((nonmissing col).map fun x => |x - m|) = some s ∧ 0 ≤ s ∧
      colBounds t col
        = ⟨some (m + t * (s / madConst)), some (m - t * (s / madConst))⟩ := by
  obtain ⟨m, hm⟩ : ∃ m, medianQ (nonmissing col) = some m := ⟨_, medianQ_eq h⟩
  have hdev : ((nonmissing col).map fun x => |x - m|) ≠ [] := by simpa using h
  obtain ⟨s, hs⟩ : ∃ s, medianQ ((nonmissing col).map fun x => |x - m|) = some s :=
    ⟨_, medianQ_eq hdev⟩
  have hs0 : 0 ≤ s := by
    refine le_medianQ_of_le hdev ?_ hs
    intro d hd
    obtain ⟨a, _, rfl⟩ := List.mem_map.mp hd
    exact abs_nonneg _
  have hmad : madQ (nonmissing col) = some (s / madConst) := by
    simp only [madQ, rawMad, hm, hs, Option.map_some']
  refine ⟨m, s, hm, hs, hs0, ?_⟩
  unfold colBounds
  rw [hm, hmad]

lemma colBounds_lower_le_upper {t : ℚ} (ht : 0 ≤ t) {col : Column} {u l : ℚ}
    (hu : (colBounds t col).upper = some u) (hl : (colBounds t col).lower = some l) :
    l ≤ u := by
  by_cases h : nonmissing col = []
  · rw [colBounds_of_nil t h] at hu
    exact absurd hu (by simp)
  · obtain ⟨m, s, _, _, hs0, hb⟩ := colBounds_spec t h
    rw [hb] at hu hl
    have hu2 : m + t * (s / madConst) = u := Option.some.inj hu
    have hl2 : m - t * (s / madConst) = l := Option.some.inj hl
    have hmad : 0 ≤ t * (s / madConst) :=
      mul_nonneg ht (div_nonneg hs0 (le_of_lt madConst_pos))
    linarith

/-! ## Flagging lemmas -/

lemma flagEntry_none (b : Bounds) : flagEntry b none = false := by
  unfold flagEntry gtNaN
  rw [ltNaN_none_right, ltNaN_none_left]
  rfl

lemma flagEntry_none_bounds (v : Value) : flagEntry ⟨none, none⟩ v = false := by
  unfold flagEntry gtNaN
  rw [ltNaN_none_left, ltNaN_none_right]
  rfl

lemma flagEntry_some_iff {u l x : ℚ} :
    flagEntry ⟨some u, some l⟩ (some x) = true ↔ u < x ∨ x < l := by
  unfold flagEntry gtNaN
  rw [ltNaN_some_some, ltNaN_some_some]
  simp

lemma flagEntry_some_false {u l y : ℚ} (h1 : y ≤ u) (h2 : l ≤ y) :
    flagEntry ⟨some u, some l⟩ (some y) = false := by
  unfold flagEntry gtNaN
  rw [ltNaN_some_some, ltNaN_some_some]
  simp only [Bool.or_eq_false_iff, decide_eq_false_iff_not]
  exact ⟨not_lt.mpr h1, not_lt.mpr h2⟩

/-! ## Idempotence machinery -/

lemma filterMap_replaceEntry {u l : ℚ} (hlu : l ≤ u) (col : Column) :
    List.filterMap (replaceEntry ⟨some u, some l⟩) col
      = (col.filterMap id).map (clipTo l u) := by
  induction col with
  | nil => rfl
  | cons v rest ih =>
    cases v with
    | none =>
      rw [List.filterMap_cons_none (replaceEntry_none _),
        List.filterMap_cons_none rfl, ih]
    | some x =>
      rw [List.filterMap_cons_some (replaceEntry_some hlu x),
        List.filterMap_cons_some (show id (some x) = some x from rfl),
        List.map_cons, ih]

lemma nonmissing_replace {u l : ℚ} (hlu : l ≤ u) (col : Column) :
    nonmissing (replace_outliers ⟨some u, some l⟩ col)
      = (nonmissing col).map (clipTo l u) := by
  show (col.map (replaceEntry _)).filterMap id = (col.filterMap id).map (clipTo l u)
  rw [List.filterMap_map]
  exact filterMap_replaceEntry hlu col

/-- Core idempotence lemma for one column: when `2 * madConst ≤ t`,
re-running detection on the replaced column flags nothing, because the
replaced column has the same median and the same MAD as the original,
and all its values lie inside the (unchanged) bounds. -/
lemma flag_replace_false {t : ℚ} (ht : 2 * madConst ≤ t) (col : Column) :
    ∀ v ∈ replace_outliers (colBounds t col) col,
      flagEntry (colBounds t (replace_outliers (colBounds t col) col)) v = false := by
  intro v hv
  by_cases hnil : nonmissing col = []
  · -- all entries missing: everything stays `none` and `none` is never flagged
    rw [colBounds_of_nil t hnil] at hv ⊢
    obtain ⟨w, hw, hvw⟩ := List.mem_map.mp hv
    rw [nonmissing_eq_nil_iff.mp hnil w hw, replaceEntry_none] at hvw
    rw [← hvw]
    exact flagEntry_none _
  · obtain ⟨m, s, hm, hs, hs0, hb⟩ := colBounds_spec t hnil
    have hcpos := madConst_pos
    have ht0 : 0 ≤ t := le_trans (by linarith) ht
    have hD0 : 0 ≤ t * (s / madConst) :=
      mul_nonneg ht0 (div_nonneg hs0 hcpos.le)
    have h2s : 2 * s ≤ t * (s / madConst) := by
      have h1 : 2 * madConst * (s / madConst) ≤ t * (s / madConst) :=
        mul_le_mul_of_nonneg_right ht (div_nonneg hs0 hcpos.le)
      have h2 : 2 * madConst * (s / madConst) = 2 * s := by
        field_simp
        ring
      linarith
    have hlu : m - t * (s / madConst) ≤ m + t * (s / madConst) := by linarith
    rw [hb] at hv ⊢
    -- the two middle entries of the sorted data
    have hab : midLo (nonmissing col) ≤ midHi (nonmissing col) := midLo_le_midHi hnil
    have hmab : m = (midLo (nonmissing col) + midHi (nonmissing col)) / 2 := by
      have h1 := medianQ_eq hnil
      rw [hm] at h1
      exact Option.some.inj h1
    -- the deviations and their two middle entries
    have hdev : ((nonmissing col).map fun x => |x - m|) ≠ [] := by simpa using hnil
    have hsab : s = (midLo ((nonmissing col).map fun x => |x - m|)
        + midHi ((nonmissing col).map fun x => |x - m|)) / 2 := by
      have h1 := medianQ_eq hdev
      rw [hs] at h1
      exact Option.some.inj h1
    have hda0 : 0 ≤ midLo ((nonmissing col).map fun x => |x - m|) := by
      obtain ⟨x, _, hx⟩ := List.mem_map.mp (midLo_mem hdev)
      rw [← hx]
      exact abs_nonneg _
    have hdb0 : 0 ≤ midHi ((nonmissing col).map fun x => |x - m|) := by
      obtain ⟨x, _, hx⟩ := List.mem_map.mp (midHi_mem hdev)
      rw [← hx]
      exact abs_nonneg _
    have hdab : midLo ((nonmissing col).map fun x => |x - m|)
        ≤ midHi ((nonmissing col).map fun x => |x - m|) := midLo_le_midHi hdev
    -- every deviation is at least (midHi - midLo) / 2
    have hwdev : ∀ d ∈ (nonmissing col).map fun x => |x - m|,
        (midHi (nonmissing col) - midLo (nonmissing col)) / 2 ≤ d := by
      intro d hd
      obtain ⟨x, hx, hxd⟩ := List.mem_map.mp hd
      rcases le_midLo_or_midHi_le hnil hx with h1 | h1
      · have h2 := neg_le_abs (x - m)
        rw [← hxd]
        linarith [hmab]
      · have h2 := le_abs_self (x - m)
        rw [← hxd]
        linarith [hmab]
    have hws : (midHi (nonmissing col) - midLo (nonmissing col)) / 2 ≤ s :=
      le_medianQ_of_le hdev hwdev hs
    -- the two middle entries are not clipped
    have hclipa : clipTo (m - t * (s / madConst)) (m + t * (s / madConst))
        (midLo (nonmissing col)) = midLo (nonmissing col) :=
      clipTo_eq_self (by linarith) (by linarith)
    have hclipb : clipTo (m - t * (s / madConst)) (m + t * (s / madConst))
        (midHi (nonmissing col)) = midHi (nonmissing col) :=
      clipTo_eq_self (by linarith) (by linarith)
    -- non-missing entries of the replaced column are the clipped values
    have hnm2 : nonmissing (replace_outliers
          ⟨some (m + t * (s / madConst)), some (m - t * (s / madConst))⟩ col)
        = (nonmissing col).map (clipTo (m - t * (s / madConst)) (m + t * (s / madConst))) :=
      nonmissing_replace hlu col
    have hnil2 : nonmissing (replace_outliers
          ⟨some (m + t * (s / madConst)), some (m - t * (s / madConst))⟩ col) ≠ [] := by
      rw [hnm2]
      simpa using hnil
    -- the replaced column has the same median
    have hm2 : medianQ (nonmissing (replace_outliers
          ⟨some (m + t * (s / madConst)), some (m - t * (s / madConst))⟩ col)) = some m := by
      rw [hnm2, medianQ_map_monotone (clipTo_monotone hlu) hnil, hclipa, hclipb, ← hmab]
    -- the replaced column has the same MAD
    have hmm : ((nonmissing col).map
          (clipTo (m - t * (s / madConst)) (m + t * (s / madConst)))).map (fun y => |y - m|)
        = ((nonmissing col).map fun x => |x - m|).map
            (fun d => min d (t * (s / madConst))) := by
      rw [List.map_map, List.map_map]
      apply List.map_congr_left
      intro x _
      exact abs_clipTo hD0
    have hminmono : Monotone (fun d : ℚ => min d (t * (s / madConst))) :=
      monotone_id.min monotone_const
    have hs2 : medianQ ((nonmissing (replace_outliers
          ⟨some (m + t * (s / madConst)), some (m - t * (s / madConst))⟩ col)).map
            fun y => |y - m|) = some s := by
      rw [hnm2, hmm, medianQ_map_monotone hminmono hdev]
      rw [min_eq_left (by linarith), min_eq_left (by linarith), ← hsab]
    -- hence the second-run bounds coincide with the first-run bounds
    obtain ⟨m2, s2, hm2', hs2', _, hb2⟩ := colBounds_spec t hnil2
    have hm2eq : m2 = m := by
      rw [hm2'] at hm2
      exact Option.some.inj hm2
    rw [hm2eq] at hs2' hb2
    have hs2eq : s2 = s := by
      rw [hs2'] at hs2
      exact Option.some.inj hs2
    rw [hs2eq] at hb2
    rw [hb2]
    -- every replaced entry lies inside the bounds, so nothing is flagged
    cases v with
    | none => exact flagEntry_none _
    | some y =>
      have hy : y ∈ nonmissing (replace_outliers
          ⟨some (m + t * (s / madConst)), some (m - t * (s / madConst))⟩ col) :=
        List.mem_filterMap.mpr ⟨some y, hv, rfl⟩
      rw [hnm2] at hy
      obtain ⟨x, _, hx⟩ := List.mem_map.mp hy
      rw [← hx]
      exact flagEntry_some_false (clipTo_bounds hlu).2 (clipTo_bounds hlu).1

/-! ## Entry-point lemmas -/

lemma detect_fst (df : Table) (t : ℚ) (r : Bool) :
    (detect_univariate_outliers df t r).1
      = df.map fun nc => (nc.1, make_boolean_column (colBounds t nc.2) nc.2) := by
  cases r <;> rfl

lemma detect_snd_true (df : Table) (t : ℚ) :
    (detect_univariate_outliers df t true).2
      = some (df.map fun nc => (nc.1, replace_outliers (colBounds t nc.2) nc.2)) := rfl

lemma detect_snd_false (df : Table) (t : ℚ) :
    (detect_univariate_outliers df t false).2 = none := rfl

lemma clipTo_self (m x : ℚ) : clipTo m m x = m := by
  unfold clipTo
  split_ifs with h1 h2
  · rfl
  · rfl
  · exact le_antisymm (not_lt.mp h1) (not_lt.mp h2)

/-! ## Claim theorems -/

/-- C1: for every input table, every column and every row, the mask
entry produced by `detect_univariate_outliers` is `true` iff the input
value is strictly above that column's upper bound or strictly below its
lower bound, and a missing input value yields `false` unconditionally
(even when the bounds themselves are NaN). -/
theorem C1_mask_iff (df : Table) (t : ℚ) (r : Bool) (i : ℕ)
    (name : String) (col : Column) (hi : df[i]? = some (name, col)) :
    (detect_univariate_outliers df t r).1[i]?
        = some (name, make_boolean_column (colBounds t col) col) ∧
    ∀ (j : ℕ) (v : Value), col[j]? = some v →
      (make_boolean_column (colBounds t col) col)[j]?
          = some (flagEntry (colBounds t col) v) ∧
      (v = none → flagEntry (colBounds t col) v = false) ∧
      ∀ x u l, v = some x → (colBounds t col).upper = some u →
        (colBounds t col).lower = some l →
        (flagEntry (colBounds t col) v = true ↔ u < x ∨ x < l) := by
  constructor
  · rw [detect_fst, List.getElem?_map, hi]
    rfl
  · intro j v hj
    refine ⟨?_, ?_, ?_⟩
    · unfold make_boolean_column
      rw [List.getElem?_map, hj]
      rfl
    · rintro rfl
      exact flagEntry_none _
    · rintro x u l rfl hu hl
      have hbb : colBounds t col = ⟨some u, some l⟩ := by
        rcases hcb : colBounds t col with ⟨bu, bl⟩
        rw [hcb] at hu hl
        simp only at hu hl
        rw [hu, hl]
      rw [hbb]
      exact flagEntry_some_iff

/-- C1 witness: concrete instantiation of `C1_mask_iff`. -/
theorem C1_mask_iff_witness :
    (detect_univariate_outliers [("a", [some 1, none, some 100])] (5/2) false).1[0]?
        = some ("a", make_boolean_column (colBounds (5/2) [some 1, none, some 100])
            [some 1, none, some 100])
    ∧ flagEntry (colBounds (5/2) [some 1, none, some 100]) none = false := by
  have h := C1_mask_iff [("a", [some 1, none, some 100])] (5/2) false 0 "a"
    [some 1, none, some 100] rfl
  exact ⟨h.1, (h.2 1 none rfl).2.1 rfl⟩

/-- C2: with `replace`, every present input value yields a replaced
value inside the column's `[lower, upper]` interval; a value strictly
above the upper bound becomes exactly the upper bound, one strictly
below the lower bound becomes exactly the lower bound, and an in-range
value (bounds included) is returned exactly unchanged. -/
theorem C2_replaced_values (df : Table) (t : ℚ) (ht : 0 ≤ t) (i : ℕ)
    (name : String) (col : Column) (hi : df[i]? = some (name, col))
    (rep : Table) (hrep : (detect_univariate_outliers df t true).2 = some rep) :
    rep[i]? = some (name, replace_outliers (colBounds t col) col) ∧
    ∀ (j : ℕ) (x u l : ℚ), col[j]? = some (some x) →
      (colBounds t col).upper = some u → (colBounds t col).lower = some l →
      ∃ y, (replace_outliers (colBounds t col) col)[j]? = some (some y) ∧
        l ≤ y ∧ y ≤ u ∧ (u < x → y = u) ∧ (x < l → y = l) ∧
        (l ≤ x → x ≤ u → y = x) := by
  have hrep2 : rep = df.map fun nc => (nc.1, replace_outliers (colBounds t nc.2) nc.2) := by
    rw [detect_snd_true] at hrep
    exact (Option.some.inj hrep).symm
  constructor
  · rw [hrep2, List.getElem?_map, hi]
    rfl
  · intro j x u l hj hu hl
    have hlu : l ≤ u := colBounds_lower_le_upper ht hu hl
    have hbb : colBounds t col = ⟨some u, some l⟩ := by
      rcases hcb : colBounds t col with ⟨bu, bl⟩
      rw [hcb] at hu hl
      simp only at hu hl
      rw [hu, hl]
    refine ⟨clipTo l u x, ?_, (clipTo_bounds hlu).1, (clipTo_bounds hlu).2, ?_, ?_, ?_⟩
    · unfold replace_outliers
      rw [List.getElem?_map, hj, Option.map_some', hbb, replaceEntry_some hlu x]
    · intro hux
      unfold clipTo
      rw [if_pos hux]
    · intro hxl
      unfold clipTo
      rw [if_neg (not_lt.mpr (by linarith)), if_pos hxl]
    · intro h1 h2
      exact clipTo_eq_self h1 h2

/-- C2 witness: concrete instantiation of `C2_replaced_values` on the
column `[0, 1, 50]` at threshold `5/2`, row of value `50`. -/
theorem C2_replaced_values_witness :
    ∃ y, (replace_outliers (colBounds (5/2) [some 0, some 1, some 50])
        [some 0, some 1, some 50])[2]? = some (some y) ∧
      1 - 5/2 * (1 / madConst) ≤ y ∧ y ≤ 1 + 5/2 * (1 / madConst) ∧
      (1 + 5/2 * (1 / madConst) < 50 → y = 1 + 5/2 * (1 / madConst)) ∧
      (50 < 1 - 5/2 * (1 / madConst) → y = 1 - 5/2 * (1 / madConst)) ∧
      (1 - 5/2 * (1 / madConst) ≤ 50 → (50 : ℚ) ≤ 1 + 5/2 * (1 / madConst) → y = 50) := by
  have h := C2_replaced_values [("b", [some 0, some 1, some 50])] (5/2) (by norm_num)
    0 "b" [some 0, some 1, some 50] rfl
    ((detect_univariate_outliers [("b", [some 0, some 1, some 50])] (5/2) true).2.getD [])
    (by with_unfolding_all rfl)
  exact h.2 2 50 (1 + 5/2 * (1 / madConst)) (1 - 5/2 * (1 / madConst)) rfl
    (by with_unfolding_all rfl) (by with_unfolding_all rfl)

/-- C3: with `replace`, a replaced entry is missing iff the
corresponding input entry is missing: missing markers are preserved
exactly, and no present value becomes missing. -/
theorem C3_missing_preserved (df : Table) (t : ℚ) (i : ℕ) (name : String)
    (col : Column) (hi : df[i]? = some (name, col)) (rep : Table)
    (hrep : (detect_univariate_outliers df t true).2 = some rep) :
    rep[i]? = some (name, replace_outliers (colBounds t col) col) ∧
    ∀ (j : ℕ) (v w : Value), col[j]? = some v →
      (replace_outliers (colBounds t col) col)[j]? = some w →
      (w = none ↔ v = none) := by
  have hrep2 : rep = df.map fun nc => (nc.1, replace_outliers (colBounds t nc.2) nc.2) := by
    rw [detect_snd_true] at hrep
    exact (Option.some.inj hrep).symm
  constructor
  · rw [hrep2, List.getElem?_map, hi]
    rfl
  · intro j v w hj hw
    unfold replace_outliers at hw
    rw [List.getElem?_map, hj, Option.map_some'] at hw
    have hwv : w = replaceEntry (colBounds t col) v := (Option.some.inj hw).symm
    subst hwv
    cases v with
    | none =>
      rw [replaceEntry_none]
    | some x =>
      have hne : nonmissing col ≠ [] := by
        intro hcontra
        have := nonmissing_eq_nil_iff.mp hcontra (some x) (List.getElem?_mem hj)
        exact absurd this (by simp)
      obtain ⟨m, s, _, _, _, hb⟩ := colBounds_spec t hne
      rw [hb]
      obtain ⟨y, hy⟩ := replaceEntry_isSome x
        (b := ⟨some (m + t * (s / madConst)), some (m - t * (s / madConst))⟩) rfl rfl
      rw [hy]
      simp

/-- C3 witness: concrete instantiation of `C3_missing_preserved`. -/
theorem C3_missing_preserved_witness :
    ((detect_univariate_outliers [("c", [none, some 7])] 1 true).2.getD [])[0]?
        = some ("c", replace_outliers (colBounds 1 [none, some 7]) [none, some 7])
    ∧ ((some (7:ℚ) : Value) = none ↔ (some (7:ℚ) : Value) = none) := by
  have h := C3_missing_preserved [("c", [none, some 7])] 1 0 "c" [none, some 7] rfl
    ((detect_univariate_outliers [("c", [none, some 7])] 1 true).2.getD [])
    (by with_unfolding_all rfl)
  exact ⟨h.1, h.2 1 (some 7) (some 7) rfl (by with_unfolding_all rfl)⟩

/-- C4: for every column independently, the bounds are
`median ± t × MAD`, where the median is taken over the column's
non-missing values, the MAD is the median of the absolute deviations
from that median scaled by the consistency constant `1 / madConst`
(which lies strictly between `1.4826` and `1.4827`), and the mask and
replaced columns that `detect_univariate_outliers` derives for a column
are functions of that column alone — so missing entries of one column
cannot affect another column's statistics (the locality conjunct quantifies
over a second table holding the same column). -/
theorem C4_bounds_formula (df : Table) (t : ℚ) (r : Bool) (i : ℕ)
    (name : String) (col : Column) (hi : df[i]? = some (name, col))
    (hne : nonmissing col ≠ []) :
    (∃ m s, medianQ (nonmissing col) = some m ∧
        medianQ ((nonmissing col).map fun x => |x - m|) = some s ∧
        colBounds t col = ⟨some (m + t * (s * (1 / madConst))),
          some (m - t * (s * (1 / madConst)))⟩) ∧
    ((14826 : ℚ) / 10000 < 1 / madConst ∧ (1 / madConst : ℚ) < 14827 / 10000) ∧
    ((detect_univariate_outliers df t r).1[i]?
        = some (name, make_boolean_column (colBounds t col) col)) ∧
    ∀ (df2 : Table) (i2 : ℕ) (name2 : String), df2[i2]? = some (name2, col) →
      (detect_univariate_outliers df2 t r).1[i2]?
          = some (name2, make_boolean_column (colBounds t col) col) ∧
      ∀ rep2 : Table, (detect_univariate_outliers df2 t true).2 = some rep2 →
        rep2[i2]? = some (name2, replace_outliers (colBounds t col) col) := by
  refine ⟨?_, ?_, ?_, ?_⟩
  · obtain ⟨m, s, hm, hs, _, hb⟩ := colBounds_spec t hne
    refine ⟨m, s, hm, hs, ?_⟩
    rw [hb]
    simp only [mul_one_div]
  · constructor <;> norm_num [madConst]
  · rw [detect_fst, List.getElem?_map, hi]
    rfl
  · intro df2 i2 name2 hi2
    constructor
    · rw [detect_fst, List.getElem?_map, hi2]
      rfl
    · intro rep2 hrep2
      rw [detect_snd_true] at hrep2
      rw [← Option.some.inj hrep2, List.getElem?_map, hi2]
      rfl

/-- C4 witness: concrete instantiation of `C4_bounds_formula` on a
table with a missing entry in a sibling column. -/
theorem C4_bounds_formula_witness :
    (14826 : ℚ) / 10000 < 1 / madConst ∧ (1 / madConst : ℚ) < 14827 / 10000 := by
  have h := C4_bounds_formula [("x", [some 1, none]), ("y", [some 2, some 4])] (5/2) true
    1 "y" [some 2, some 4] rfl (by with_unfolding_all decide)
  exact h.2.1

/-- C5: `detect_univariate_outliers` never mutates the caller's table:
in the state-passing embedding the caller's dataframe after the call is
exactly the dataframe before it (the only in-place operations in the
source act on the freshly copied `temp_df`), for both values of the
replace flag. -/
theorem C5_no_mutation (df : Table) (t : ℚ) (r : Bool) :
    (detect_univariate_outliers_trace df t r).1 = df ∧
    (detect_univariate_outliers_trace df t r).2 = detect_univariate_outliers df t r :=
  ⟨rfl, rfl⟩

/-- C6 counterexample: a call with `threshold = 0` does not fail — no
validation exists in the code — and returns a fully computed mask and
replaced table (bounds collapse to the median `2`, so `1` and `10` are
flagged and every value is replaced by `2`). -/
theorem C6_counterexample :
    detect_univariate_outliers [("a", [some 1, some 2, some 10])] 0 true
      = ([("a", [true, false, true])], some [("a", [some 2, some 2, some 2])]) := by
  with_unfolding_all rfl

/-- C6 amended: the code performs no input validation; `threshold ≤ 0`
is accepted, and at `threshold = 0` both bounds equal the column
median, so a present value is flagged iff it differs from the median
and every present value is replaced by the median. -/
theorem C6_amended_threshold_zero (df : Table) (i : ℕ) (name : String)
    (col : Column) (j : ℕ) (x m : ℚ) (hi : df[i]? = some (name, col))
    (hj : col[j]? = some (some x)) (hm : medianQ (nonmissing col) = some m) :
    ∃ b, (make_boolean_column (colBounds 0 col) col)[j]? = some b ∧
      (b = true ↔ x ≠ m) ∧
      (replace_outliers (colBounds 0 col) col)[j]? = some (some m) ∧
      (detect_univariate_outliers df 0 true).1[i]?
        = some (name, make_boolean_column (colBounds 0 col) col) := by
  have hne : nonmissing col ≠ [] := by
    intro hc
    rw [hc] at hm
    exact absurd hm (by rw [show medianQ [] = none from rfl]; simp)
  obtain ⟨m2, s, hm2, hs, hs0, hb⟩ := colBounds_spec 0 hne
  have hm2m : m2 = m := by
    rw [hm2] at hm
    exact Option.some.inj hm
  subst hm2m
  have hb0 : colBounds 0 col = ⟨some m2, some m2⟩ := by
    rw [hb]
    simp only [zero_mul, add_zero, sub_zero]
  refine ⟨flagEntry (colBounds 0 col) (some x), ?_, ?_, ?_, ?_⟩
  · unfold make_boolean_column
    rw [List.getElem?_map, hj]
    rfl
  · rw [hb0, flagEntry_some_iff]
    constructor
    · rintro (h1 | h1) <;> · intro hc; rw [hc] at h1; exact absurd h1 (lt_irrefl m2)
    · intro h1
      rcases lt_or_gt_of_ne h1 with h2 | h2
      · right; exact h2
      · left; exact h2
  · unfold replace_outliers
    rw [List.getElem?_map, hj, Option.map_some', hb0, replaceEntry_some (le_refl m2) x,
      clipTo_self]
  · rw [detect_fst, List.getElem?_map, hi]
    rfl

/-- C6 witness: concrete instantiation of `C6_amended_threshold_zero`. -/
theorem C6_amended_threshold_zero_witness :
    ∃ b, (make_boolean_column (colBounds 0 [some 1, some 2, some 10])
          [some 1, some 2, some 10])[2]? = some b ∧
      (b = true ↔ (10 : ℚ) ≠ 2) ∧
      (replace_outliers (colBounds 0 [some 1, some 2, some 10])
          [some 1, some 2, some 10])[2]? = some (some 2) ∧
      (detect_univariate_outliers [("a", [some 1, some 2, some 10])] 0 true).1[0]?
        = some ("a", make_boolean_column (colBounds 0 [some 1, some 2, some 10])
            [some 1, some 2, some 10]) :=
  C6_amended_threshold_zero [("a", [some 1, some 2, some 10])] 0 "a"
    [some 1, some 2, some 10] 2 10 2 rfl rfl (by with_unfolding_all rfl)

/-- C7 counterexample: a table containing a column with no non-missing
values does not fail: the call returns a computed result — the
all-missing column gets an all-false mask and is returned unchanged. -/
theorem C7_counterexample :
    detect_univariate_outliers [("a", [none, none]), ("b", [some 1, some 5])] (5/2) true
      = ([("a", [false, false]), ("b", [false, false])],
         some [("a", [none, none]), ("b", [some 1, some 5])]) := by
  with_unfolding_all rfl

/-- C7 amended: the code performs no such validation: a column with no
non-missing values yields NaN bounds, an all-false mask column and an
unchanged all-missing column; a zero-column table likewise yields the
empty mask and empty replaced table instead of an error. -/
theorem C7_amended_no_validation (df : Table) (t : ℚ) (i : ℕ)
    (name : String) (col : Column) (hi : df[i]? = some (name, col))
    (hall : ∀ v ∈ col, v = none) :
    ((detect_univariate_outliers df t true).1[i]?
        = some (name, col.map fun _ => false)) ∧
    (∃ rep, (detect_univariate_outliers df t true).2 = some rep ∧
      rep[i]? = some (name, col)) ∧
    ∀ t2 : ℚ, detect_univariate_outliers [] t2 true = ([], some []) := by
  have hnil : nonmissing col = [] := nonmissing_eq_nil_iff.mpr hall
  have hbn : colBounds t col = ⟨none, none⟩ := colBounds_of_nil t hnil
  have hrepcol : replace_outliers (colBounds t col) col = col := by
    unfold replace_outliers
    have h1 : col.map (replaceEntry (colBounds t col)) = col.map id :=
      List.map_congr_left fun v hv => by rw [hall v hv]; rfl
    rw [h1, List.map_id]
  refine ⟨?_, ⟨_, detect_snd_true df t, ?_⟩, fun t2 => rfl⟩
  · rw [detect_fst, List.getElem?_map, hi]
    have h2 : make_boolean_column (colBounds t col) col = col.map fun _ => false := by
      unfold make_boolean_column
      apply List.map_congr_left
      intro v hv
      rw [hbn]
      exact flagEntry_none_bounds v
    rw [Option.map_some']
    simp only [h2]
  · rw [List.getElem?_map, hi, Option.map_some', hrepcol]

/-- C7 witness: concrete instantiation of `C7_amended_no_validation`. -/
theorem C7_amended_no_validation_witness :
    (detect_univariate_outliers [("z", [none, none, none]), ("w", [some 3])] (5/2) true).1[0]?
      = some ("z", ([none, none, none] : Column).map fun _ => false) :=
  (C7_amended_no_validation [("z", [none, none, none]), ("w", [some 3])] (5/2) 0 "z"
    [none, none, none] rfl (by decide)).1

/-- C8: on any table the mask — and, with replace, the replaced
table — has exactly the input's column names in the input's order, and
per column exactly as many rows as the input column. -/
theorem C8_shapes (df : Table) (t : ℚ) (r : Bool) :
    (detect_univariate_outliers df t r).1.map Prod.fst = df.map Prod.fst ∧
    (∀ (i : ℕ) (name : String) (col : Column), df[i]? = some (name, col) →
      ∃ mc, (detect_univariate_outliers df t r).1[i]? = some (name, mc) ∧
        mc.length = col.length) ∧
    ∀ rep : Table, (detect_univariate_outliers df t true).2 = some rep →
      rep.map Prod.fst = df.map Prod.fst ∧
      ∀ (i : ℕ) (name : String) (col : Column), df[i]? = some (name, col) →
        ∃ rc, rep[i]? = some (name, rc) ∧ rc.length = col.length := by
  refine ⟨?_, ?_, ?_⟩
  · rw [detect_fst, List.map_map]
    rfl
  · intro i name col hi
    refine ⟨make_boolean_column (colBounds t col) col, ?_, ?_⟩
    · rw [detect_fst, List.getElem?_map, hi]
      rfl
    · unfold make_boolean_column
      rw [List.length_map]
  · intro rep hrep
    rw [detect_snd_true] at hrep
    have hrep2 : rep = df.map fun nc => (nc.1, replace_outliers (colBounds t nc.2) nc.2) :=
      (Option.some.inj hrep).symm
    constructor
    · rw [hrep2, List.map_map]
      rfl
    · intro i name col hi
      refine ⟨replace_outliers (colBounds t col) col, ?_, ?_⟩
      · rw [hrep2, List.getElem?_map, hi]
        rfl
      · unfold replace_outliers
        rw [List.length_map]

/-- C8 witness: concrete instantiation of `C8_shapes`. -/
theorem C8_shapes_witness :
    (detect_univariate_outliers [("p", [some 1, none]), ("q", [some 2, some 3])] 2 true).1.map
        Prod.fst
      = [("p", [some 1, none]), ("q", [some 2, some 3])].map Prod.fst ∧
    ∃ mc, (detect_univariate_outliers
        [("p", [some 1, none]), ("q", [some 2, some 3])] 2 true).1[1]?
          = some ("q", mc) ∧ mc.length = 2 := by
  have h := C8_shapes [("p", [some 1, none]), ("q", [some 2, some 3])] 2 true
  exact ⟨h.1, h.2.1 1 "q" [some 2, some 3] rfl⟩

/-- C9 counterexample: idempotence fails as stated.  At the (positive)
threshold `1`, running detection+replacement on the column
`[-10, 0, 0, 10]` clips the two extreme values; re-running with the
same threshold on the replaced table flags both clipped values again
(clipping shrinks the MAD, which tightens the bounds), so the second
mask is not false everywhere. -/
theorem C9_counterexample :
    (detect_univariate_outliers
        ((detect_univariate_outliers
            [("a", [some (-10), some 0, some 0, some 10])] 1 true).2.getD [])
        1 true).1
      = [("a", [true, false, false, true])] := by
  with_unfolding_all rfl

/-- C9 amended: idempotence holds for every table once the threshold is
at least `2 * madConst` (≈ 1.349) — in particular at the default
`2.5`: re-running detection+replacement with the same threshold on the
replaced table flags zero outliers. -/
theorem C9_amended_idempotent (df : Table) (t : ℚ) (ht : 2 * madConst ≤ t)
    (rep : Table) (hrep : (detect_univariate_outliers df t true).2 = some rep) :
    ∀ p ∈ (detect_univariate_outliers rep t true).1, ∀ b ∈ p.2, b = false := by
  rw [detect_snd_true] at hrep
  have hrep2 : rep = df.map fun nc => (nc.1, replace_outliers (colBounds t nc.2) nc.2) :=
    (Option.some.inj hrep).symm
  subst hrep2
  intro p hp b hb
  rw [detect_fst] at hp
  obtain ⟨nc2, hnc2, hp2⟩ := List.mem_map.mp hp
  obtain ⟨nc, _, hnc2eq⟩ := List.mem_map.mp hnc2
  rw [← hp2] at hb
  simp only at hb
  rw [← hnc2eq] at hb
  simp only at hb
  unfold make_boolean_column at hb
  obtain ⟨v, hv, hbv⟩ := List.mem_map.mp hb
  rw [← hbv]
  exact flag_replace_false ht nc.2 v hv

/-- C9 witness: at the default threshold `5/2 ≥ 2 * madConst`, the
second-run mask entry for the table `[("a", [0, 10])]` is `false`. -/
theorem C9_amended_idempotent_witness :
    ((detect_univariate_outliers
        ((detect_univariate_outliers [("a", [some 0, some 10])] (5/2) true).2.getD [])
        (5/2) true).1.getD 0 ("", [])).2.getD 0 true = false := by
  have h := C9_amended_idempotent [("a", [some 0, some 10])] (5/2)
    (by norm_num [madConst])
    ((detect_univariate_outliers [("a", [some 0, some 10])] (5/2) true).2.getD [])
    (by with_unfolding_all rfl)
  exact h ((detect_univariate_outliers
        ((detect_univariate_outliers [("a", [some 0, some 10])] (5/2) true).2.getD [])
        (5/2) true).1.getD 0 ("", []))
    (by with_unfolding_all decide) _ (by with_unfolding_all decide)

/-- C10: the outlier mask is unaffected by the replace flag: the mask
is computed before the branch on `replace`, so the mask returned with
`replace = true` is identical to the one returned with
`replace = false`. -/
theorem C10_mask_independent (df : Table) (t : ℚ) :
    (detect_univariate_outliers df t true).1
      = (detect_univariate_outliers df t false).1 := rfl

end RobustStats
